import Mathlib

/-!
Verification of the SecretSync core against its specification.

The developments below shallowly embed the Go functions of the repository:
the deep-merge helper of the integration test suite, the target-inheritance
cycle detector, role-ARN derivation, account-id validation, source-path
resolution, dynamic-target expansion and the CLI target splitter.  JSON
values are modelled as a closed inductive type; Go maps are modelled as
association lists whose observable behaviour (lookup, assignment, growth)
matches the Go map operations used by the code.
-/

set_option linter.unusedVariables false

/-- JSON document model: null, bool, number, string, sequence, or map from
string keys to values.  Objects are carried as association lists; Go map
semantics are recovered through the lookup functions below. -/
inductive JSON where
  | null : JSON
  | bool : Bool → JSON
  | num : Int → JSON
  | str : String → JSON
  | arr : List JSON → JSON
  | obj : List (String × JSON) → JSON

/-- Lookup of a key in an association list, mirroring a Go map read
(first binding wins). -/
def lookupKey {α : Type} (k : String) : List (String × α) → Option α
  | [] => none
  | (k₂, v) :: rest => if k₂ = k then some v else lookupKey k rest

/-- Replacement of the value bound to a key, mirroring a Go map assignment
to an existing key. -/
def setKey {α : Type} (k : String) (v : α) : List (String × α) → List (String × α)
  | [] => []
  | (k₂, v₂) :: rest => if k₂ = k then (k₂, v) :: rest else (k₂, v₂) :: setKey k v rest

/-- Key list of an association list (the domain of the modelled Go map). -/
def keysOf {α : Type} (l : List (String × α)) : List String :=
  l.map Prod.fst

mutual

/-- Embedding of deepMerge from the integration test suite
(src/unnamed/part_003, lines 246 to 277): copy dst into the result, then for
each src binding append when both values are sequences, recurse when both are
maps, and otherwise override with the src value. -/
def deepMerge : List (String × JSON) → List (String × JSON) → List (String × JSON)
  | dst, [] => dst
  | dst, (k, v) :: rest =>
      deepMerge
        (match lookupKey k dst with
         | some existing => setKey k (combineVal existing v) dst
         | none => dst ++ [(k, v)])
        rest
termination_by _dst src => sizeOf src

/-- Per-key combination step of deepMerge: the slice-append check comes
first, then the map-recursion check, and otherwise the src value wins. -/
def combineVal : JSON → JSON → JSON
  | JSON.arr du, JSON.arr su => JSON.arr (du ++ su)
  | JSON.obj du, JSON.obj su => JSON.obj (deepMerge du su)
  | _, s => s
termination_by _d s => sizeOf s

end

mutual

/-- Modelled from the spec: the implementation of pkg/utils.DeepMerge is not
under src/ (only its test file deepmerge_test.go is), so the map-level merge
is modelled from spec section 4.1: shared keys merge recursively, src keys
not in dst are added as-is. -/
def DeepMerge : List (String × JSON) → List (String × JSON) → List (String × JSON)
  | dst, [] => dst
  | dst, (k, v) :: rest =>
      DeepMerge
        (match lookupKey k dst with
         | some existing => setKey k (specMergeVal existing v) dst
         | none => dst ++ [(k, v)])
        rest
termination_by _dst src => sizeOf src

/-- Modelled from the spec: value-level merge of pkg/utils (spec section
4.1).  A null src preserves dst; two sequences concatenate; two maps merge
recursively; otherwise (type mismatch, two scalars, dst null) src wins. -/
def specMergeVal : JSON → JSON → JSON
  | d, JSON.null => d
  | JSON.arr du, JSON.arr su => JSON.arr (du ++ su)
  | JSON.obj du, JSON.obj su => JSON.obj (DeepMerge du su)
  | _, s => s
termination_by _d s => sizeOf s

end

/-- Option-level view of one deepMerge key: absent keys pass the other side
through, present pairs are combined by combineVal. -/
def mergeOpt : Option JSON → Option JSON → Option JSON
  | o, none => o
  | none, some w => some w
  | some v, some w => some (combineVal v w)

/-- Option-level view of one DeepMerge key (spec-modelled merge). -/
def specMergeOpt : Option JSON → Option JSON → Option JSON
  | o, none => o
  | none, some w => some w
  | some v, some w => some (specMergeVal v w)

/-- Recognizer for sequence values. -/
def JSON.isArr : JSON → Bool
  | JSON.arr _ => true
  | _ => false

/-- Recognizer for map values. -/
def JSON.isObj : JSON → Bool
  | JSON.obj _ => true
  | _ => false

mutual

/-- Alignment condition on a value triple under which the deep merge is
associative: two sequences (or two maps) in the outer positions must not
surround a middle value of a different kind, and aligned map triples must be
aligned at every key shared by all three. -/
def okTriple : JSON → JSON → JSON → Bool
  | JSON.arr _, JSON.arr _, JSON.arr _ => true
  | JSON.arr _, _, JSON.arr _ => false
  | JSON.obj a, JSON.obj b, JSON.obj c => okTriples a b c
  | JSON.obj _, _, JSON.obj _ => false
  | _, _, _ => true
termination_by x _y _z => sizeOf x

/-- Map-level alignment: every key of the first map that is also bound in
the other two carries an aligned value triple. -/
def okTriples : List (String × JSON) → List (String × JSON) → List (String × JSON) → Bool
  | [], _, _ => true
  | (k, x) :: t, b, c =>
      (match lookupKey k b, lookupKey k c with
       | some y, some z => okTriple x y z
       | _, _ => true) && okTriples t b c
termination_by a _b _c => sizeOf a

end

mutual

/-- Well-formed JSON value: every object node has pairwise distinct keys, as
any value decoded from a Go map does. -/
def wfJSON : JSON → Bool
  | JSON.arr l => wfList l
  | JSON.obj l => (keysOf l).Nodup && wfObj l
  | _ => true
termination_by x => sizeOf x

/-- Well-formedness of every element of a sequence. -/
def wfList : List JSON → Bool
  | [] => true
  | x :: t => wfJSON x && wfList t
termination_by l => sizeOf l

/-- Well-formedness of every value of a map. -/
def wfObj : List (String × JSON) → Bool
  | [] => true
  | (_, v) :: t => wfJSON v && wfObj t
termination_by l => sizeOf l

end

/-- Well-formed map: distinct keys and well-formed values. -/
def wfMap (l : List (String × JSON)) : Bool :=
  (keysOf l).Nodup && wfObj l

/-- Target specification from the pipeline package: destination account,
region, optional explicit role ARN and the ordered import list. -/
structure Target where
  accountID : String
  region : String
  roleARN : String
  imports : List String

/-- Vault-backed source configuration (mount path). -/
structure VaultSource where
  mount : String

/-- Source entry: an optional Vault backend. -/
structure Source where
  vault : Option VaultSource

/-- Vault-backed merge store configuration (mount path). -/
structure MergeStoreVault where
  mount : String

/-- Merge-store configuration: an optional Vault backend. -/
structure MergeStoreConfig where
  vault : Option MergeStoreVault

/-- Control Tower execution role settings (name and path). -/
structure ExecutionRoleConfig where
  name : String
  path : String

/-- Control Tower settings. -/
structure ControlTowerConfig where
  enabled : Bool
  executionRole : ExecutionRoleConfig

/-- Execution-context settings (custom role pattern). -/
structure ExecutionContextConfig where
  customRolePattern : String

/-- AWS settings used by role derivation. -/
structure AWSConfig where
  region : String
  controlTower : ControlTowerConfig
  executionContext : ExecutionContextConfig

/-- Pipeline configuration restricted to the fields the verified functions
read: sources, targets, merge store and AWS settings. -/
structure Config where
  sources : List (String × Source)
  targets : List (String × Target)
  mergeStore : MergeStoreConfig
  aws : AWSConfig

/-- Import list of a named target; empty when the name is not a target
(the Go code skips the loop in that case). -/
def importsOf (c : Config) (n : String) : List String :=
  match lookupKey n c.targets with
  | some t => t.imports
  | none => []

mutual

/-- Embedding of detectCycle from pkg/pipeline/discovery.go: DFS over
target imports carrying the visited set and the recursion stack.  The Nat
argument is recursion fuel; with fuel exceeding the number of targets the
none case is unreachable (proved below). -/
def detectCycleF (c : Config) : Nat → String → List String → List String → Option (Except String (List String))
  | 0, _, _, _ => none
  | fuel + 1, name, visited, recStack =>
      goImports c fuel name (importsOf c name) (name :: visited) (name :: recStack)
termination_by fuel name visited recStack => (fuel, 0)

/-- Loop of detectCycle over the import list of the current target: imports
naming targets are either reported as cycles (on the recursion stack),
skipped (already visited) or recursed into; other imports are ignored. -/
def goImports (c : Config) : Nat → String → List String → List String → List String → Option (Except String (List String))
  | _, _, [], visited, _ => some (Except.ok visited)
  | fuel, name, imp :: rest, visited, recStack =>
      if (lookupKey imp c.targets).isSome then
        if imp ∈ visited then
          if imp ∈ recStack then
            some (Except.error ("circular dependency detected in target inheritance: " ++ name ++ " -> " ++ imp))
          else
            goImports c fuel name rest visited recStack
        else
          match detectCycleF c fuel imp visited recStack with
          | none => none
          | some (Except.error e) => some (Except.error e)
          | some (Except.ok visited₂) => goImports c fuel name rest visited₂ recStack
      else
        goImports c fuel name rest visited recStack
termination_by fuel name l visited recStack => (fuel, l.length + 1)

end

/-- Loop of ValidateTargetInheritance: a DFS from every target with fresh
visited and recursion-stack sets, stopping at the first error. -/
def validateLoop (c : Config) : List (String × Target) → Option (Except String Unit)
  | [] => some (Except.ok ())
  | (name, _) :: rest =>
      match detectCycleF c (c.targets.length + 1) name [] [] with
      | none => none
      | some (Except.error e) => some (Except.error e)
      | some (Except.ok _) => validateLoop c rest

/-- Embedding of Config.ValidateTargetInheritance from
pkg/pipeline/discovery.go. -/
def ValidateTargetInheritance (c : Config) : Option (Except String Unit) :=
  validateLoop c c.targets

/-- Embedding of Config.GetSourcePath from pkg/pipeline/discovery.go: a
known Vault source resolves to its mount, a known target resolves into the
Vault merge store, and anything else falls back to the import name itself
(with a warning in the Go code). -/
def GetSourcePath (c : Config) (importName : String) : String :=
  match lookupKey importName c.sources with
  | some src =>
      match src.vault with
      | some v => v.mount
      | none => getSourcePathTargets c importName
  | none => getSourcePathTargets c importName
where
  getSourcePathTargets (c : Config) (importName : String) : String :=
    match lookupKey importName c.targets with
    | some _ =>
        match c.mergeStore.vault with
        | some msv => msv.mount ++ "/" ++ importName
        | none => importName
    | none => importName

/-- Single-character-safe model of strings.HasPrefix over string data. -/
def goHasPre (s pre : String) : Bool :=
  pre.data.isPrefixOf s.data

/-- Single-character-safe model of strings.HasSuffix over string data. -/
def goHasSuf (s suf : String) : Bool :=
  suf.data.isSuffixOf s.data

/-- Path normalization step of GetRoleARN: an empty path becomes /, and a
slash is prepended or appended only when absent. -/
def goNormalizePath (p : String) : String :=
  if p = "" then "/"
  else
    let p₁ := if goHasPre p "/" then p else "/" ++ p
    if goHasSuf p₁ "/" then p₁ else p₁ ++ "/"

/-- Model of strings.ReplaceAll on character lists (the Go code only calls
it with a fixed non-empty pattern). -/
def replaceAllC : List Char → List Char → List Char → List Char
  | [], _, _ => []
  | c :: rest, pat, rep =>
      if h : pat ≠ [] ∧ pat.isPrefixOf (c :: rest) then
        rep ++ replaceAllC ((c :: rest).drop pat.length) pat rep
      else
        c :: replaceAllC rest pat rep
termination_by s _pat _rep => s.length
decreasing_by
  · simp only [List.length_drop]
    have : 0 < pat.length := List.length_pos.mpr h.1
    simp [List.length_cons]
    omega
  · simp [List.length_cons]

/-- String wrapper for replaceAllC. -/
def goReplaceAll (s pat rep : String) : String :=
  String.mk (replaceAllC s.data pat.data rep.data)

/-- First target carrying the requested account id together with a
non-empty explicit role ARN (the range loop at the top of GetRoleARN). -/
def findExplicitRole (ts : List (String × Target)) (accountID : String) : Option String :=
  match ts with
  | [] => none
  | (_, t) :: rest =>
      if t.accountID = accountID ∧ t.roleARN ≠ "" then some t.roleARN
      else findExplicitRole rest accountID

/-- Embedding of Config.GetRoleARN from pkg/pipeline/discovery.go. -/
def GetRoleARN (c : Config) (accountID : String) : String :=
  match findExplicitRole c.targets accountID with
  | some r => r
  | none =>
      if c.aws.controlTower.enabled then
        let roleName₀ := c.aws.controlTower.executionRole.name
        let roleName := if roleName₀ = "" then "AWSControlTowerExecution" else roleName₀
        let path := goNormalizePath c.aws.controlTower.executionRole.path
        "arn:aws:iam::" ++ accountID ++ ":role" ++ path ++ roleName
      else if c.aws.executionContext.customRolePattern ≠ "" then
        goReplaceAll c.aws.executionContext.customRolePattern "\x7b\x7b.AccountID\x7d\x7d" accountID
      else
        "arn:aws:iam::" ++ accountID ++ ":role/AWSControlTowerExecution"

/-- Byte length of a string as Go len() computes it (UTF-8 bytes). -/
def goLen (s : String) : Nat :=
  (s.data.map Char.utf8Size).sum

/-- Embedding of isValidAWSAccountID from pkg/pipeline/discovery.go: byte
length exactly 12 and every rune between 0 and 9. -/
def isValidAWSAccountID (accountID : String) : Bool :=
  goLen accountID == 12 && accountID.data.all (fun c => '0' ≤ c ∧ c ≤ '9')

/-- Account-id pass of Config.Validate (pkg/pipeline/discovery.go lines 688
to 694): the first target with a non-empty, invalid account id is
reported. -/
def validateAccountIDs : List (String × Target) → Except String Unit
  | [] => Except.ok ()
  | (name, t) :: rest =>
      if t.accountID ≠ "" ∧ isValidAWSAccountID t.accountID = false then
        Except.error ("target \"" ++ name ++ "\": invalid account_id format \"" ++ t.accountID ++ "\" (must be 12 digits)")
      else
        validateAccountIDs rest

/-- Merge loop of ExpandDynamicTargets (pkg/pipeline/discovery.go lines 436
to 443): each discovered target is added only when its name is not already
bound in the (growing) target map. -/
def expandDynamicTargets : List (String × Target) → List (String × Target) → List (String × Target)
  | acc, [] => acc
  | acc, (n, t) :: rest =>
      if (lookupKey n acc).isSome then expandDynamicTargets acc rest
      else expandDynamicTargets (acc ++ [(n, t)]) rest

/-- White-space table of Go unicode.IsSpace (the code points recognized as
space by strings.TrimSpace). -/
def goIsSpace (c : Char) : Bool :=
  c = ' ' || c = '\t' || c = '\n' || (c.val = 11) || (c.val = 12) || c = '\r' ||
  (c.val = 0x85) || (c.val = 0xA0) || (c.val = 0x1680) ||
  (0x2000 ≤ c.val && c.val ≤ 0x200A) || (c.val = 0x2028) || (c.val = 0x2029) ||
  (c.val = 0x202F) || (c.val = 0x205F) || (c.val = 0x3000)

/-- Model of strings.TrimSpace: drop white space from both ends. -/
def goTrimSpace (s : String) : String :=
  String.mk (((s.data.dropWhile goIsSpace).reverse.dropWhile goIsSpace).reverse)

/-- Model of strings.Split with a single-character separator: split the
character list at every separator occurrence, keeping empty pieces. -/
def goSplit (sep : Char) : List Char → List (List Char)
  | [] => [[]]
  | c :: rest =>
      if c = sep then [] :: goSplit sep rest
      else
        match goSplit sep rest with
        | h :: t => (c :: h) :: t
        | [] => [[c]]

/-- Comma split of a string as strings.Split(s, ",") produces it. -/
def goSplitComma (s : String) : List String :=
  (goSplit ',' s.data).map String.mk

/-- Accumulation loop of splitTargets over the comma-separated pieces. -/
def splitTargetsLoop : List String → List String
  | [] => []
  | p :: rest =>
      let trimmed := goTrimSpace p
      if trimmed ≠ "" then trimmed :: splitTargetsLoop rest
      else splitTargetsLoop rest

/-- Embedding of splitTargets from src/python/secretssync/secretssync.go:
an empty selector is nil, otherwise split on commas, trim each piece and
keep the non-empty ones. -/
def splitTargets (targets : String) : List String :=
  if targets = "" then []
  else splitTargetsLoop (goSplitComma targets)

/-- Containment of a character sequence inside another (substring test used
to inspect error messages). -/
def containsSeq (pat : List Char) : List Char → Bool
  | [] => pat.isEmpty
  | c :: rest => pat.isPrefixOf (c :: rest) || containsSeq pat rest

/-- Inheritance edge of the target graph: both ends are targets and the
second is listed among the imports of the first. -/
def Edge (c : Config) (a b : String) : Prop :=
  (lookupKey a c.targets).isSome ∧ (lookupKey b c.targets).isSome ∧ b ∈ importsOf c a

/-- Non-empty directed path in the target graph. -/
inductive Reaches (c : Config) : String → String → Prop where
  | single {a b : String} : Edge c a b → Reaches c a b
  | cons {a b d : String} : Edge c a b → Reaches c b d → Reaches c a d

/-- Presence of a directed cycle (including a self-loop) among target
imports. -/
def HasCycle (c : Config) : Prop :=
  ∃ x, Reaches c x x

/-- Invariant of the recursion stack: its head has an edge to the current
node and consecutive entries are linked by edges. -/
def chainTo (c : Config) : List String → String → Prop
  | [], _ => True
  | g :: gs, n => Edge c g n ∧ chainTo c gs g

/-- DFS color invariant: every finished node (visited but not on the
recursion stack) has all its successors finished as well. -/
def blackClosed (c : Config) (visited recStack : List String) : Prop :=
  ∀ a, a ∈ visited → a ∉ recStack → ∀ b, Edge c a b → b ∈ visited ∧ b ∉ recStack

/-- Path normalization as claimed by the spec: exactly one leading and one
trailing slash around the slash-trimmed path, defaulting to / when empty. -/
def claimNormalizePath (p : String) : String :=
  if p = "" then "/"
  else "/" ++ String.mk (((p.data.dropWhile (· = '/')).reverse.dropWhile (· = '/')).reverse) ++ "/"

/-- Count of target names not yet visited, the termination measure of the
DFS. -/
def unvisitedCount (c : Config) (visited : List String) : Nat :=
  ((keysOf c.targets).filter (fun n => ¬ n ∈ visited)).length

/-! Basic association-list lemmas. -/

theorem lookupKey_eq_none {α : Type} {k : String} {l : List (String × α)} :
    lookupKey k l = none ↔ k ∉ keysOf l := by
  induction l with
  | nil => simp [lookupKey, keysOf]
  | cons hd tl ih =>
      obtain ⟨k₂, v⟩ := hd
      by_cases h : k₂ = k
      · subst h
        simp [lookupKey, keysOf]
      · simp [lookupKey, h, keysOf, ih]
        intro hk
        exact fun he => h he.symm

theorem lookupKey_isSome {α : Type} {k : String} {l : List (String × α)} :
    (lookupKey k l).isSome = true ↔ k ∈ keysOf l := by
  rcases ho : lookupKey k l with _ | v
  · simp [lookupKey_eq_none.mp ho]
  · simp
    have : lookupKey k l ≠ none := by simp [ho]
    by_contra hk
    exact this (lookupKey_eq_none.mpr hk)

theorem lookupKey_mem {α : Type} {k : String} {l : List (String × α)} {v : α}
    (h : lookupKey k l = some v) : (k, v) ∈ l := by
  induction l with
  | nil => simp [lookupKey] at h
  | cons hd tl ih =>
      obtain ⟨k₂, v₂⟩ := hd
      by_cases hk : k₂ = k
      · subst hk
        simp [lookupKey] at h
        simp [h]
      · simp [lookupKey, hk] at h
        simp [ih h]

theorem setKey_lookup_self {α : Type} {k : String} {v : α} {l : List (String × α)}
    (h : k ∈ keysOf l) : lookupKey k (setKey k v l) = some v := by
  induction l with
  | nil => simp [keysOf] at h
  | cons hd tl ih =>
      obtain ⟨k₂, v₂⟩ := hd
      by_cases hk : k₂ = k
      · subst hk
        simp [setKey, lookupKey]
      · simp [keysOf, hk] at h
        rcases h with h | h
        · exact absurd h.symm hk
        · simp [setKey, hk, lookupKey]
          exact ih (by simpa [keysOf] using h)

theorem setKey_lookup_other {α : Type} {k k₂ : String} {v : α} {l : List (String × α)}
    (h : k₂ ≠ k) : lookupKey k₂ (setKey k v l) = lookupKey k₂ l := by
  induction l with
  | nil => simp [setKey]
  | cons hd tl ih =>
      obtain ⟨k₃, v₃⟩ := hd
      by_cases hk : k₃ = k
      · subst hk
        have : ¬ k₃ = k₂ := fun he => h (he.symm)
        simp [setKey, lookupKey, this]
      · simp [setKey, hk, lookupKey]
        by_cases hk₂ : k₃ = k₂
        · simp [hk₂]
        · simp [hk₂, ih]

theorem keysOf_setKey {α : Type} {k : String} {v : α} {l : List (String × α)} :
    keysOf (setKey k v l) = keysOf l := by
  induction l with
  | nil => simp [setKey]
  | cons hd tl ih =>
      obtain ⟨k₂, v₂⟩ := hd
      by_cases hk : k₂ = k
      · simp [setKey, hk, keysOf]
      · simp [setKey, hk, keysOf]
        simpa [keysOf] using ih

theorem lookupKey_append_left {α : Type} {k : String} {l₁ l₂ : List (String × α)} {v : α}
    (h : lookupKey k l₁ = some v) : lookupKey k (l₁ ++ l₂) = some v := by
  induction l₁ with
  | nil => simp [lookupKey] at h
  | cons hd tl ih =>
      obtain ⟨k₂, v₂⟩ := hd
      by_cases hk : k₂ = k
      · subst hk
        simp [lookupKey] at h ⊢
        exact h
      · simp [lookupKey, hk] at h ⊢
        exact ih h

theorem lookupKey_append_right {α : Type} {k : String} {l₁ l₂ : List (String × α)}
    (h : lookupKey k l₁ = none) : lookupKey k (l₁ ++ l₂) = lookupKey k l₂ := by
  induction l₁ with
  | nil => simp
  | cons hd tl ih =>
      obtain ⟨k₂, v₂⟩ := hd
      by_cases hk : k₂ = k
      · subst hk
        simp [lookupKey] at h
      · simp [lookupKey, hk] at h ⊢
        exact ih h

/-! Equation lemmas for the two merge functions. -/

theorem deepMerge_nil (dst : List (String × JSON)) : deepMerge dst [] = dst := by
  simp [deepMerge]

theorem deepMerge_cons (dst : List (String × JSON)) (k : String) (v : JSON)
    (rest : List (String × JSON)) :
    deepMerge dst ((k, v) :: rest) =
      deepMerge
        (match lookupKey k dst with
         | some existing => setKey k (combineVal existing v) dst
         | none => dst ++ [(k, v)])
        rest := by
  rw [deepMerge]

theorem DeepMerge_nil (dst : List (String × JSON)) : DeepMerge dst [] = dst := by
  simp [DeepMerge]

theorem DeepMerge_cons (dst : List (String × JSON)) (k : String) (v : JSON)
    (rest : List (String × JSON)) :
    DeepMerge dst ((k, v) :: rest) =
      DeepMerge
        (match lookupKey k dst with
         | some existing => setKey k (specMergeVal existing v) dst
         | none => dst ++ [(k, v)])
        rest := by
  rw [DeepMerge]

/-! Lookup characterization of the merges. -/

theorem deepMerge_lookup (src : List (String × JSON)) :
    ∀ dst k, (keysOf src).Nodup →
      lookupKey k (deepMerge dst src) = mergeOpt (lookupKey k dst) (lookupKey k src) := by
  induction src with
  | nil =>
      intro dst k _
      simp [deepMerge_nil, lookupKey, mergeOpt]
  | cons hd rest ih =>
      intro dst k hnd
      obtain ⟨k₀, v₀⟩ := hd
      have hcons₀ : (k₀ :: keysOf rest).Nodup := by simpa [keysOf] using hnd
      have hnd' : (keysOf rest).Nodup := (List.nodup_cons.mp hcons₀).2
      have hk₀ : k₀ ∉ keysOf rest := (List.nodup_cons.mp hcons₀).1
      rw [deepMerge_cons]
      rw [ih _ k hnd']
      by_cases hk : k = k₀
      · subst hk
        have hrest : lookupKey k rest = none := lookupKey_eq_none.mpr hk₀
        rw [hrest]
        rcases hd : lookupKey k dst with _ | e
        · have : lookupKey k (dst ++ [(k, v₀)]) = some v₀ := by
            rw [lookupKey_append_right hd]
            simp [lookupKey]
          simp [hd, this, mergeOpt, lookupKey]
        · have hmem : k ∈ keysOf dst := by
            rw [← lookupKey_isSome]
            simp [hd]
          have : lookupKey k (setKey k (combineVal e v₀) dst) = some (combineVal e v₀) :=
            setKey_lookup_self hmem
          simp [hd, this, mergeOpt, lookupKey]
      · have hne : ¬ k₀ = k := fun he => hk he.symm
        have hcons : lookupKey k ((k₀, v₀) :: rest) = lookupKey k rest := by
          simp [lookupKey, hne]
        rw [hcons]
        rcases hd : lookupKey k₀ dst with _ | e
        · have : lookupKey k (dst ++ [(k₀, v₀)]) = lookupKey k dst := by
            rcases hdk : lookupKey k dst with _ | w
            · rw [lookupKey_append_right hdk]
              simp [lookupKey, hne, hdk]
            · exact lookupKey_append_left hdk
          simp [hd, this]
        · have : lookupKey k (setKey k₀ (combineVal e v₀) dst) = lookupKey k dst :=
            setKey_lookup_other hk
          simp [hd, this]

theorem DeepMerge_lookup (src : List (String × JSON)) :
    ∀ dst k, (keysOf src).Nodup →
      lookupKey k (DeepMerge dst src) = specMergeOpt (lookupKey k dst) (lookupKey k src) := by
  induction src with
  | nil =>
      intro dst k _
      simp [DeepMerge_nil, lookupKey, specMergeOpt]
  | cons hd rest ih =>
      intro dst k hnd
      obtain ⟨k₀, v₀⟩ := hd
      have hcons₀ : (k₀ :: keysOf rest).Nodup := by simpa [keysOf] using hnd
      have hnd' : (keysOf rest).Nodup := (List.nodup_cons.mp hcons₀).2
      have hk₀ : k₀ ∉ keysOf rest := (List.nodup_cons.mp hcons₀).1
      rw [DeepMerge_cons]
      rw [ih _ k hnd']
      by_cases hk : k = k₀
      · subst hk
        have hrest : lookupKey k rest = none := lookupKey_eq_none.mpr hk₀
        rw [hrest]
        rcases hd : lookupKey k dst with _ | e
        · have : lookupKey k (dst ++ [(k, v₀)]) = some v₀ := by
            rw [lookupKey_append_right hd]
            simp [lookupKey]
          simp [hd, this, specMergeOpt, lookupKey]
        · have hmem : k ∈ keysOf dst := by
            rw [← lookupKey_isSome]
            simp [hd]
          have : lookupKey k (setKey k (specMergeVal e v₀) dst) = some (specMergeVal e v₀) :=
            setKey_lookup_self hmem
          simp [hd, this, specMergeOpt, lookupKey]
      · have hne : ¬ k₀ = k := fun he => hk he.symm
        have hcons : lookupKey k ((k₀, v₀) :: rest) = lookupKey k rest := by
          simp [lookupKey, hne]
        rw [hcons]
        rcases hd : lookupKey k₀ dst with _ | e
        · have : lookupKey k (dst ++ [(k₀, v₀)]) = lookupKey k dst := by
            rcases hdk : lookupKey k dst with _ | w
            · rw [lookupKey_append_right hdk]
              simp [lookupKey, hne, hdk]
            · exact lookupKey_append_left hdk
          simp [hd, this]
        · have : lookupKey k (setKey k₀ (specMergeVal e v₀) dst) = lookupKey k dst :=
            setKey_lookup_other hk
          simp [hd, this]

/-! Key-list shape of deepMerge results. -/

theorem keysOf_append {α : Type} (l₁ l₂ : List (String × α)) :
    keysOf (l₁ ++ l₂) = keysOf l₁ ++ keysOf l₂ := by
  simp [keysOf]

theorem deepMerge_keys (src : List (String × JSON)) :
    ∀ dst, (keysOf src).Nodup →
      keysOf (deepMerge dst src)
        = keysOf dst ++ (keysOf src).filter (fun n => decide (n ∉ keysOf dst)) := by
  induction src with
  | nil =>
      intro dst _
      simp [deepMerge_nil, keysOf]
  | cons hd rest ih =>
      intro dst hnd
      obtain ⟨k₀, v₀⟩ := hd
      have hcons₀ : (k₀ :: keysOf rest).Nodup := by simpa [keysOf] using hnd
      have hnd' : (keysOf rest).Nodup := (List.nodup_cons.mp hcons₀).2
      have hk₀ : k₀ ∉ keysOf rest := (List.nodup_cons.mp hcons₀).1
      rw [deepMerge_cons]
      rcases hd : lookupKey k₀ dst with _ | e
      · have hk₀d : k₀ ∉ keysOf dst := lookupKey_eq_none.mp hd
        rw [ih _ hnd']
        rw [keysOf_append]
        have hstep : keysOf ([(k₀, v₀)] : List (String × JSON)) = [k₀] := by simp [keysOf]
        rw [hstep]
        have hfilter :
            (keysOf rest).filter (fun n => decide (n ∉ keysOf dst ++ [k₀]))
              = (keysOf rest).filter (fun n => decide (n ∉ keysOf dst)) := by
          apply List.filter_congr
          intro n hn
          have hne : n ≠ k₀ := fun he => hk₀ (he ▸ hn)
          simp [hne]
        rw [hfilter]
        have hgoal :
            keysOf ((k₀, v₀) :: rest) = k₀ :: keysOf rest := by simp [keysOf]
        rw [hgoal]
        simp [List.filter_cons, hk₀d]
      · have hk₀d : k₀ ∈ keysOf dst := by
          rw [← lookupKey_isSome]
          simp [hd]
        rw [ih _ hnd']
        rw [keysOf_setKey]
        have hgoal :
            keysOf ((k₀, v₀) :: rest) = k₀ :: keysOf rest := by simp [keysOf]
        rw [hgoal]
        simp [List.filter_cons, hk₀d]

theorem deepMerge_keys_nodup {dst src : List (String × JSON)}
    (hd : (keysOf dst).Nodup) (hs : (keysOf src).Nodup) :
    (keysOf (deepMerge dst src)).Nodup := by
  rw [deepMerge_keys src dst hs]
  refine List.Nodup.append hd (List.Nodup.filter _ hs) ?_
  intro n hn hmem
  have := List.of_mem_filter hmem
  simp at this
  exact this hn

/-! Extensionality for association lists with distinct keys. -/

theorem assoc_ext {l₁ : List (String × JSON)} :
    ∀ l₂, keysOf l₁ = keysOf l₂ → (keysOf l₁).Nodup →
      (∀ k, lookupKey k l₁ = lookupKey k l₂) → l₁ = l₂ := by
  induction l₁ with
  | nil =>
      intro l₂ hk _ _
      have : keysOf l₂ = [] := hk.symm
      cases l₂ with
      | nil => rfl
      | cons h t => simp [keysOf] at this
  | cons hd t₁ ih =>
      intro l₂ hk hnd hl
      obtain ⟨k₀, v₀⟩ := hd
      cases l₂ with
      | nil => simp [keysOf] at hk
      | cons hd₂ t₂ =>
          obtain ⟨k₂, v₂⟩ := hd₂
          have hkk : k₀ = k₂ ∧ keysOf t₁ = keysOf t₂ := by
            constructor
            · have := hk
              simp [keysOf] at this
              exact this.1
            · have := hk
              simp [keysOf] at this
              exact this.2
          obtain ⟨hke, hkt⟩ := hkk
          subst hke
          have hcons₀ : (k₀ :: keysOf t₁).Nodup := by simpa [keysOf] using hnd
          have hnd' : (keysOf t₁).Nodup := (List.nodup_cons.mp hcons₀).2
          have hk₀ : k₀ ∉ keysOf t₁ := (List.nodup_cons.mp hcons₀).1
          have hv : v₀ = v₂ := by
            have := hl k₀
            simp [lookupKey] at this
            exact this
          subst hv
          have ht : t₁ = t₂ := by
            apply ih t₂ hkt hnd'
            intro k
            by_cases he : k₀ = k
            · subst he
              have h₁ : lookupKey k₀ t₁ = none := lookupKey_eq_none.mpr hk₀
              have h₂ : lookupKey k₀ t₂ = none := by
                apply lookupKey_eq_none.mpr
                rw [← hkt]
                exact hk₀
              rw [h₁, h₂]
            · have := hl k
              simp [lookupKey, he] at this
              exact this
          rw [ht]

/-! Size and shape lemmas for the associativity development. -/

theorem JSON.sizeOf_pos (x : JSON) : 0 < sizeOf x := by
  cases x <;> simp

theorem sizeOf_lookupKey {k : String} {l : List (String × JSON)} {v : JSON}
    (h : lookupKey k l = some v) : sizeOf v < sizeOf l := by
  induction l with
  | nil => simp [lookupKey] at h
  | cons hd t ih =>
      obtain ⟨k₂, v₂⟩ := hd
      by_cases hk : k₂ = k
      · subst hk
        simp [lookupKey] at h
        subst h
        simp
        omega
      · simp [lookupKey, hk] at h
        have := ih h
        simp
        omega

theorem combineVal_arr_arr (a b : List JSON) :
    combineVal (JSON.arr a) (JSON.arr b) = JSON.arr (a ++ b) := by
  simp [combineVal]

theorem combineVal_obj_obj (a b : List (String × JSON)) :
    combineVal (JSON.obj a) (JSON.obj b) = JSON.obj (deepMerge a b) := by
  simp [combineVal]

theorem combineVal_default {x y : JSON}
    (h₁ : (x.isArr && y.isArr) = false) (h₂ : (x.isObj && y.isObj) = false) :
    combineVal x y = y := by
  cases x <;> cases y <;> simp_all [combineVal, JSON.isArr, JSON.isObj]

theorem combineVal_to_arr {x : JSON} (b : List JSON) (h : x.isArr = false) :
    combineVal x (JSON.arr b) = JSON.arr b := by
  cases x <;> simp_all [combineVal, JSON.isArr]

theorem combineVal_to_obj {x : JSON} (b : List (String × JSON)) (h : x.isObj = false) :
    combineVal x (JSON.obj b) = JSON.obj b := by
  cases x <;> simp_all [combineVal, JSON.isObj]

theorem combineVal_to_scalar {z : JSON} (w : JSON)
    (h₁ : z.isArr = false) (h₂ : z.isObj = false) :
    combineVal w z = z := by
  cases w <;> cases z <;> simp_all [combineVal, JSON.isArr, JSON.isObj]

/-! Bridges from the well-formedness and alignment checkers to their
components. -/

theorem wf_obj_parts {l : List (String × JSON)} (h : wfJSON (JSON.obj l) = true) :
    (keysOf l).Nodup ∧ wfObj l = true := by
  rw [wfJSON] at h
  simp at h
  exact h

theorem wfObj_lookup {l : List (String × JSON)} {k : String} {v : JSON}
    (hw : wfObj l = true) (h : lookupKey k l = some v) : wfJSON v = true := by
  induction l with
  | nil => simp [lookupKey] at h
  | cons hd t ih =>
      obtain ⟨k₂, v₂⟩ := hd
      rw [wfObj] at hw
      simp at hw
      by_cases hk : k₂ = k
      · subst hk
        simp [lookupKey] at h
        subst h
        exact hw.1
      · simp [lookupKey, hk] at h
        exact ih hw.2 h

theorem okTriples_lookup {a b c : List (String × JSON)} {k : String} {x y z : JSON}
    (ht : okTriples a b c = true)
    (ha : lookupKey k a = some x) (hb : lookupKey k b = some y)
    (hc : lookupKey k c = some z) : okTriple x y z = true := by
  induction a with
  | nil => simp [lookupKey] at ha
  | cons hd t ih =>
      obtain ⟨k₂, v₂⟩ := hd
      rw [okTriples] at ht
      simp at ht
      by_cases hk : k₂ = k
      · subst hk
        simp [lookupKey] at ha
        subst ha
        have := ht.1
        rw [hb, hc] at this
        exact this
      · simp [lookupKey, hk] at ha
        exact ih ht.2 ha

/-! Map-level associativity given per-key associativity of the value
combination. -/

theorem deepMerge_assoc_aux {a b c : List (String × JSON)}
    (ha : (keysOf a).Nodup) (hb : (keysOf b).Nodup) (hc : (keysOf c).Nodup)
    (IH : ∀ k x y z, lookupKey k a = some x → lookupKey k b = some y →
        lookupKey k c = some z →
        combineVal (combineVal x y) z = combineVal x (combineVal y z)) :
    deepMerge (deepMerge a b) c = deepMerge a (deepMerge b c) := by
  have hbc : (keysOf (deepMerge b c)).Nodup := deepMerge_keys_nodup hb hc
  have hab : (keysOf (deepMerge a b)).Nodup := deepMerge_keys_nodup ha hb
  apply assoc_ext
  · rw [deepMerge_keys c _ hc, deepMerge_keys b _ hb,
        deepMerge_keys _ _ hbc, deepMerge_keys c _ hc]
    rw [List.filter_append, List.append_assoc]
    congr 1
    congr 1
    rw [List.filter_filter]
    apply List.filter_congr
    intro n hn
    by_cases hna : n ∈ keysOf a
    · simp [hna]
    · by_cases hnb : n ∈ keysOf b
      · simp [hna, hnb, List.mem_filter]
      · simp [hna, hnb, List.mem_filter]
  · exact deepMerge_keys_nodup hab hc
  · intro k
    rw [deepMerge_lookup c _ k hc, deepMerge_lookup b _ k hb,
        deepMerge_lookup _ _ k hbc, deepMerge_lookup c _ k hc]
    rcases hx : lookupKey k a with _ | x <;>
      rcases hy : lookupKey k b with _ | y <;>
        rcases hz : lookupKey k c with _ | z <;>
          simp [mergeOpt]
    exact IH k x y z hx hy hz

/-! Value-level associativity of combineVal under alignment. -/

theorem combineVal_to_null (w : JSON) : combineVal w JSON.null = JSON.null := by
  cases w <;> simp [combineVal]

set_option maxHeartbeats 2000000 in
theorem combineVal_assoc_n :
    ∀ n, ∀ x y z : JSON, sizeOf x + sizeOf y + sizeOf z ≤ n →
      wfJSON x = true → wfJSON y = true → wfJSON z = true →
      okTriple x y z = true →
      combineVal (combineVal x y) z = combineVal x (combineVal y z) := by
  intro n
  induction n with
  | zero =>
      intro x y z hs _ _ _ _
      have := JSON.sizeOf_pos x
      have := JSON.sizeOf_pos y
      have := JSON.sizeOf_pos z
      omega
  | succ n IH =>
      intro x y z hs hwx hwy hwz hok
      cases z with
      | null => cases x <;> cases y <;> simp [combineVal]
      | bool bz => cases x <;> cases y <;> simp [combineVal]
      | num nz => cases x <;> cases y <;> simp [combineVal]
      | str sz => cases x <;> cases y <;> simp [combineVal]
      | arr dz =>
          cases y <;> cases x <;> (try simp [okTriple] at hok) <;>
            simp [combineVal, List.append_assoc]
      | obj oz =>
          cases y with
          | obj oy =>
              cases x with
              | obj ox =>
                  rw [combineVal_obj_obj, combineVal_obj_obj, combineVal_obj_obj,
                      combineVal_obj_obj]
                  congr 1
                  have hok' : okTriples ox oy oz = true := by
                    rw [okTriple] at hok
                    exact hok
                  obtain ⟨hnx, hwox⟩ := wf_obj_parts hwx
                  obtain ⟨hny, hwoy⟩ := wf_obj_parts hwy
                  obtain ⟨hnz, hwoz⟩ := wf_obj_parts hwz
                  apply deepMerge_assoc_aux hnx hny hnz
                  intro k x' y' z' hx' hy' hz'
                  apply IH x' y' z'
                  · have h₁ := sizeOf_lookupKey hx'
                    have h₂ := sizeOf_lookupKey hy'
                    have h₃ := sizeOf_lookupKey hz'
                    simp at hs
                    omega
                  · exact wfObj_lookup hwox hx'
                  · exact wfObj_lookup hwoy hy'
                  · exact wfObj_lookup hwoz hz'
                  · exact okTriples_lookup hok' hx' hy' hz'
              | null => simp [combineVal]
              | bool bx => simp [combineVal]
              | num nx => simp [combineVal]
              | str sx => simp [combineVal]
              | arr dx => simp [combineVal]
          | null => cases x <;> (try simp [okTriple] at hok) <;> simp [combineVal]
          | bool by₂ => cases x <;> (try simp [okTriple] at hok) <;> simp [combineVal]
          | num ny => cases x <;> (try simp [okTriple] at hok) <;> simp [combineVal]
          | str sy => cases x <;> (try simp [okTriple] at hok) <;> simp [combineVal]
          | arr dy => cases x <;> (try simp [okTriple] at hok) <;> simp [combineVal]

/-- C4 (amended): deepMerge is associative on well-formed maps that are
kind-aligned at every key path shared by all three operands. -/
theorem deepMerge_assoc_aligned (a b c : List (String × JSON))
    (hwa : wfMap a = true) (hwb : wfMap b = true) (hwc : wfMap c = true)
    (hok : okTriples a b c = true) :
    deepMerge (deepMerge a b) c = deepMerge a (deepMerge b c) := by
  have hna : (keysOf a).Nodup := by
    rw [wfMap] at hwa
    simp at hwa
    exact hwa.1
  have hnb : (keysOf b).Nodup := by
    rw [wfMap] at hwb
    simp at hwb
    exact hwb.1
  have hnc : (keysOf c).Nodup := by
    rw [wfMap] at hwc
    simp at hwc
    exact hwc.1
  have hwoa : wfObj a = true := by
    rw [wfMap] at hwa
    simp at hwa
    exact hwa.2
  have hwob : wfObj b = true := by
    rw [wfMap] at hwb
    simp at hwb
    exact hwb.2
  have hwoc : wfObj c = true := by
    rw [wfMap] at hwc
    simp at hwc
    exact hwc.2
  apply deepMerge_assoc_aux hna hnb hnc
  intro k x y z hx hy hz
  apply combineVal_assoc_n (sizeOf x + sizeOf y + sizeOf z) x y z (le_refl _)
  · exact wfObj_lookup hwoa hx
  · exact wfObj_lookup hwob hy
  · exact wfObj_lookup hwoc hz
  · exact okTriples_lookup hok hx hy hz

/-- C4 (witness for the amended theorem): associativity holds on the
scenario-A-shaped maps, whose kinds are aligned. -/
theorem deepMerge_assoc_aligned_witness :
    deepMerge
        (deepMerge [("tags", JSON.arr [JSON.str "prod"])] [("tags", JSON.arr [JSON.str "v2"])])
        [("tags", JSON.arr [JSON.str "v3"])]
      = deepMerge [("tags", JSON.arr [JSON.str "prod"])]
          (deepMerge [("tags", JSON.arr [JSON.str "v2"])] [("tags", JSON.arr [JSON.str "v3"])]) := by
  apply deepMerge_assoc_aligned
  · simp [wfMap, keysOf, wfObj, wfJSON, wfList]
  · simp [wfMap, keysOf, wfObj, wfJSON, wfList]
  · simp [wfMap, keysOf, wfObj, wfJSON, wfList]
  · simp [okTriples, okTriple, lookupKey]

/-- C4 (counterexample): associativity of deepMerge fails for maps as soon
as a shared key carries a sequence in the outer operands and a scalar in
the middle one; the two association orders disagree at key k. -/
theorem deepMerge_assoc_counterexample :
    deepMerge
        (deepMerge [("k", JSON.arr [JSON.str "1"])] [("k", JSON.str "s")])
        [("k", JSON.arr [JSON.str "2"])]
      ≠ deepMerge [("k", JSON.arr [JSON.str "1"])]
          (deepMerge [("k", JSON.str "s")] [("k", JSON.arr [JSON.str "2"])]) := by
  intro h
  have hlook : lookupKey "k"
      (deepMerge
        (deepMerge [("k", JSON.arr [JSON.str "1"])] [("k", JSON.str "s")])
        [("k", JSON.arr [JSON.str "2"])])
      = lookupKey "k"
      (deepMerge [("k", JSON.arr [JSON.str "1"])]
          (deepMerge [("k", JSON.str "s")] [("k", JSON.arr [JSON.str "2"])])) := by
    rw [h]
  simp [deepMerge, lookupKey, setKey, combineVal] at hlook

/-- C1: deepMerge returns a map whose key set is the union of the two key
sets; for shared keys two sequences concatenate in dst-then-src order, two
maps recurse, and any other pair is overridden by the src value; src-only
keys are added as-is and dst-only keys are kept. -/
theorem deepMerge_spec (dst src : List (String × JSON))
    (hs : (keysOf src).Nodup) :
    (∀ k, k ∈ keysOf (deepMerge dst src) ↔ k ∈ keysOf dst ∨ k ∈ keysOf src)
    ∧ (∀ k, lookupKey k src = none →
        lookupKey k (deepMerge dst src) = lookupKey k dst)
    ∧ (∀ k w, lookupKey k dst = none → lookupKey k src = some w →
        lookupKey k (deepMerge dst src) = some w)
    ∧ (∀ k du su, lookupKey k dst = some (JSON.arr du) →
        lookupKey k src = some (JSON.arr su) →
        lookupKey k (deepMerge dst src) = some (JSON.arr (du ++ su)))
    ∧ (∀ k du su, lookupKey k dst = some (JSON.obj du) →
        lookupKey k src = some (JSON.obj su) →
        lookupKey k (deepMerge dst src) = some (JSON.obj (deepMerge du su)))
    ∧ (∀ k v w, lookupKey k dst = some v → lookupKey k src = some w →
        (v.isArr && w.isArr) = false → (v.isObj && w.isObj) = false →
        lookupKey k (deepMerge dst src) = some w) := by
  refine ⟨?_, ?_, ?_, ?_, ?_, ?_⟩
  · intro k
    rw [← lookupKey_isSome, deepMerge_lookup src dst k hs]
    rw [← lookupKey_isSome, ← lookupKey_isSome]
    rcases lookupKey k dst with _ | v <;> rcases lookupKey k src with _ | w <;>
      simp [mergeOpt]
  · intro k hnone
    rw [deepMerge_lookup src dst k hs, hnone]
    rcases lookupKey k dst with _ | v <;> simp [mergeOpt]
  · intro k w hnone hsome
    rw [deepMerge_lookup src dst k hs, hnone, hsome]
    simp [mergeOpt]
  · intro k du su hdu hsu
    rw [deepMerge_lookup src dst k hs, hdu, hsu]
    simp [mergeOpt, combineVal]
  · intro k du su hdu hsu
    rw [deepMerge_lookup src dst k hs, hdu, hsu]
    simp [mergeOpt, combineVal]
  · intro k v w hv hw harr hobj
    rw [deepMerge_lookup src dst k hs, hv, hw]
    simp [mergeOpt]
    exact combineVal_default harr hobj

/-- C1 (witness): the union, append and override clauses evaluated on the
list-append test data of deepmerge_test.go. -/
theorem deepMerge_spec_witness :
    lookupKey "tags"
        (deepMerge [("tags", JSON.arr [JSON.str "prod"]), ("version", JSON.str "1.0")]
          [("tags", JSON.arr [JSON.str "v2"]), ("new_key", JSON.str "new_value")])
      = some (JSON.arr ([JSON.str "prod"] ++ [JSON.str "v2"])) :=
  (deepMerge_spec
      [("tags", JSON.arr [JSON.str "prod"]), ("version", JSON.str "1.0")]
      [("tags", JSON.arr [JSON.str "v2"]), ("new_key", JSON.str "new_value")]
      (by simp [keysOf])).2.2.2.1 "tags" [JSON.str "prod"] [JSON.str "v2"] rfl rfl

/-- C3: in the merge modelled from the spec a null src value preserves the
dst binding, and at the value level null is a two-sided identity. -/
theorem DeepMerge_null_preserves (dst src : List (String × JSON))
    (hs : (keysOf src).Nodup) :
    (∀ k v, lookupKey k src = some JSON.null → lookupKey k dst = some v →
        lookupKey k (DeepMerge dst src) = some v)
    ∧ (∀ x : JSON, specMergeVal JSON.null x = x)
    ∧ (∀ x : JSON, specMergeVal x JSON.null = x) := by
  refine ⟨?_, ?_, ?_⟩
  · intro k v hnull hv
    rw [DeepMerge_lookup src dst k hs, hnull, hv]
    simp [specMergeOpt]
    cases v <;> simp [specMergeVal]
  · intro x
    cases x <;> simp [specMergeVal]
  · intro x
    cases x <;> simp [specMergeVal]

/-- C3 (witness): the nil-handling test data of deepmerge_test.go evaluated
through the spec-modelled merge: a null src value keeps the dst value. -/
theorem DeepMerge_null_preserves_witness :
    lookupKey "remove"
        (DeepMerge [("keep", JSON.str "value"), ("remove", JSON.str "old")]
          [("remove", JSON.null), ("add", JSON.str "new")])
      = some (JSON.str "old") :=
  (DeepMerge_null_preserves
      [("keep", JSON.str "value"), ("remove", JSON.str "old")]
      [("remove", JSON.null), ("add", JSON.str "new")]
      (by simp [keysOf])).1 "remove" (JSON.str "old") rfl rfl

/-! Account-id validation (C7). -/

theorem utf8Size_of_digit {c : Char} (h : c ≤ '9') : c.utf8Size = 1 := by
  have hv : c.val ≤ 57 := h
  have h₂ : c.val ≤ 0x7F := UInt32.le_trans hv (by decide)
  unfold Char.utf8Size
  simp [h₂]

theorem isValidAWSAccountID_iff (s : String) :
    isValidAWSAccountID s = true ↔
      (s.data.length = 12 ∧ ∀ c ∈ s.data, '0' ≤ c ∧ c ≤ '9') := by
  rw [isValidAWSAccountID]
  simp only [Bool.and_eq_true, beq_iff_eq, List.all_eq_true, decide_eq_true_eq]
  constructor
  · rintro ⟨hlen, hdig⟩
    have hsz : (s.data.map Char.utf8Size) = s.data.map (fun _ => 1) := by
      apply List.map_congr_left
      intro c hc
      exact utf8Size_of_digit (hdig c hc).2
    have : goLen s = s.data.length := by
      rw [goLen, hsz]
      simp [List.map_const]
    constructor
    · rw [← this]
      exact hlen
    · exact hdig
  · rintro ⟨hlen, hdig⟩
    have hsz : (s.data.map Char.utf8Size) = s.data.map (fun _ => 1) := by
      apply List.map_congr_left
      intro c hc
      exact utf8Size_of_digit (hdig c hc).2
    have hg : goLen s = s.data.length := by
      rw [goLen, hsz]
      simp [List.map_const]
    exact ⟨by rw [hg, hlen], hdig⟩

/-- C7: the account-id pass of Validate accepts a configuration exactly
when every target has an empty account id or one made of exactly 12 ASCII
decimal digits; an empty account id is always accepted. -/
theorem validateAccountIDs_iff (ts : List (String × Target)) :
    validateAccountIDs ts = Except.ok () ↔
      ∀ p ∈ ts, p.2.accountID = ""
        ∨ (p.2.accountID.data.length = 12 ∧ ∀ c ∈ p.2.accountID.data, '0' ≤ c ∧ c ≤ '9') := by
  induction ts with
  | nil => simp [validateAccountIDs]
  | cons hd rest ih =>
      obtain ⟨name, t⟩ := hd
      rw [validateAccountIDs]
      by_cases hcond : t.accountID ≠ "" ∧ isValidAWSAccountID t.accountID = false
      · rw [if_pos hcond]
        constructor
        · intro hcontra
          simp at hcontra
        · intro hall
          have := hall (name, t) (List.mem_cons_self _ _)
          simp only at this
          rcases this with this | this
          · exact absurd this hcond.1
          · have := (isValidAWSAccountID_iff t.accountID).mpr this
            rw [hcond.2] at this
            simp at this
      · rw [if_neg hcond]
        rw [ih]
        constructor
        · intro hrest p hp
          rcases List.mem_cons.mp hp with hp' | hp'
          · subst hp'
            simp only
            by_cases he : t.accountID = ""
            · exact Or.inl he
            · have hv : isValidAWSAccountID t.accountID = true := by
                rcases hb : isValidAWSAccountID t.accountID
                · exact absurd ⟨he, hb⟩ hcond
                · rfl
              exact Or.inr ((isValidAWSAccountID_iff t.accountID).mp hv)
          · exact hrest p hp'
        · intro hall p hp
          exact hall p (List.mem_cons_of_mem _ hp)

/-! Dynamic-target expansion (C9). -/

theorem expandDynamicTargets_lookup :
    ∀ (dis acc : List (String × Target)) (n : String),
      lookupKey n (expandDynamicTargets acc dis)
        = match lookupKey n acc with
          | some v => some v
          | none => lookupKey n dis := by
  intro dis
  induction dis with
  | nil =>
      intro acc n
      rw [expandDynamicTargets]
      rcases lookupKey n acc with _ | v <;> simp [lookupKey]
  | cons hd rest ih =>
      intro acc n
      obtain ⟨k, t⟩ := hd
      rw [expandDynamicTargets]
      rcases hacc : lookupKey k acc with _ | v₀
      · simp only [hacc, Option.isSome_none, Bool.false_eq_true, if_false]
        rw [ih]
        by_cases hk : k = n
        · subst hk
          have : lookupKey k (acc ++ [(k, t)]) = some t := by
            rw [lookupKey_append_right hacc]
            simp [lookupKey]
          rw [this, hacc]
          simp [lookupKey]
        · have hne : ¬ k = n := hk
          have : lookupKey n (acc ++ [(k, t)]) = lookupKey n acc := by
            rcases hn : lookupKey n acc with _ | w
            · rw [lookupKey_append_right hn]
              simp [lookupKey, hne]
            · exact lookupKey_append_left hn
          rw [this]
          rcases lookupKey n acc with _ | w
          · simp [lookupKey, hne]
          · simp
      · simp only [hacc, Option.isSome_some, if_true]
        rw [ih]
        by_cases hk : k = n
        · subst hk
          rw [hacc]
        · have hne : ¬ k = n := hk
          rcases lookupKey n acc with _ | w
          · simp [lookupKey, hne]
          · simp

/-- C9: after dynamic-target expansion every static target keeps its
definition, a discovered target colliding with a static name is dropped,
and discovered targets with fresh names are added. -/
theorem expandDynamicTargets_spec (staticT dis : List (String × Target)) :
    (∀ n v, lookupKey n staticT = some v →
        lookupKey n (expandDynamicTargets staticT dis) = some v)
    ∧ (∀ n, lookupKey n staticT = none →
        lookupKey n (expandDynamicTargets staticT dis) = lookupKey n dis)
    ∧ (∀ n, n ∈ keysOf (expandDynamicTargets staticT dis) ↔
        n ∈ keysOf staticT ∨ n ∈ keysOf dis) := by
  refine ⟨?_, ?_, ?_⟩
  · intro n v hv
    rw [expandDynamicTargets_lookup dis staticT n, hv]
  · intro n hn
    rw [expandDynamicTargets_lookup dis staticT n, hn]
  · intro n
    rw [← lookupKey_isSome, expandDynamicTargets_lookup dis staticT n]
    rw [← lookupKey_isSome, ← lookupKey_isSome]
    rcases lookupKey n staticT with _ | v <;> simp

/-- C9 (witness): a colliding discovered target is dropped and a fresh one
is added, on a one-entry static map. -/
theorem expandDynamicTargets_spec_witness :
    lookupKey "Prod"
        (expandDynamicTargets [("Prod", Target.mk "111111111111" "" "" [])]
          [("Prod", Target.mk "222222222222" "" "" []), ("Dev", Target.mk "333333333333" "" "" [])])
      = some (Target.mk "111111111111" "" "" []) :=
  (expandDynamicTargets_spec [("Prod", Target.mk "111111111111" "" "" [])]
      [("Prod", Target.mk "222222222222" "" "" []), ("Dev", Target.mk "333333333333" "" "" [])]).1
    "Prod" (Target.mk "111111111111" "" "" []) rfl

/-! Target splitting (C10). -/

/-- C10: splitTargets splits on commas, trims white space, drops entries
that are empty after trimming, and maps the empty selector to the empty
list. -/
theorem splitTargets_spec (s : String) :
    splitTargets s = ((goSplitComma s).map goTrimSpace).filter (fun t => t ≠ "")
    ∧ splitTargets "" = []
    ∧ ∀ x ∈ splitTargets s, x ≠ "" := by
  have hloop : ∀ parts : List String,
      splitTargetsLoop parts = (parts.map goTrimSpace).filter (fun t => t ≠ "") := by
    intro parts
    induction parts with
    | nil => simp [splitTargetsLoop]
    | cons p rest ih =>
        rw [splitTargetsLoop]
        by_cases hp : goTrimSpace p ≠ ""
        · rw [if_pos hp, ih]
          simp [hp, List.filter_cons]
        · rw [if_neg hp, ih]
          simp at hp
          simp [hp, List.filter_cons]
  have hmain : splitTargets s = ((goSplitComma s).map goTrimSpace).filter (fun t => t ≠ "") := by
    rw [splitTargets]
    by_cases he : s = ""
    · rw [if_pos he, he]
      rfl
    · rw [if_neg he]
      exact hloop _
  refine ⟨hmain, by simp [splitTargets], ?_⟩
  intro x hx
  rw [hmain] at hx
  have := List.of_mem_filter hx
  simpa using this

/-! Source-path resolution (C8). -/

/-- C8 (counterexample): an import known to neither sources nor targets
does not resolve to an empty tree; GetSourcePath returns the import name
itself as a non-empty path to read from. -/
theorem GetSourcePath_unknown_counterexample :
    GetSourcePath
        (Config.mk [] [] (MergeStoreConfig.mk (some (MergeStoreVault.mk "merged-secrets")))
          (AWSConfig.mk "us-east-1" (ControlTowerConfig.mk false (ExecutionRoleConfig.mk "" ""))
            (ExecutionContextConfig.mk "")))
        "nonexistent" = "nonexistent"
    ∧ ("nonexistent" : String) ≠ "" := by
  constructor
  · rfl
  · decide

/-- C8 (amended): an import name that is neither a configured source nor a
configured target resolves, with only a warning, to the import name itself
used as the read path. -/
theorem GetSourcePath_unknown (c : Config) (imp : String)
    (hs : lookupKey imp c.sources = none)
    (ht : lookupKey imp c.targets = none) :
    GetSourcePath c imp = imp := by
  rw [GetSourcePath, hs]
  rw [GetSourcePath.getSourcePathTargets, ht]

/-- C8 (witness): the amended resolution evaluated on a concrete
configuration without sources or targets. -/
theorem GetSourcePath_unknown_witness :
    GetSourcePath
        (Config.mk [] [] (MergeStoreConfig.mk (some (MergeStoreVault.mk "merged-secrets")))
          (AWSConfig.mk "us-east-1" (ControlTowerConfig.mk false (ExecutionRoleConfig.mk "" ""))
            (ExecutionContextConfig.mk "")))
        "unknown-import" = "unknown-import" :=
  GetSourcePath_unknown
    (Config.mk [] [] (MergeStoreConfig.mk (some (MergeStoreVault.mk "merged-secrets")))
      (AWSConfig.mk "us-east-1" (ControlTowerConfig.mk false (ExecutionRoleConfig.mk "" ""))
        (ExecutionContextConfig.mk "")))
    "unknown-import" rfl rfl

/-! Role-ARN derivation (C6). -/

theorem isPrefixOf_singleton_iff {c : Char} {l : List Char} :
    List.isPrefixOf [c] l = true ↔ ∃ t, l = c :: t := by
  cases l with
  | nil => simp [List.isPrefixOf]
  | cons h t =>
      simp [List.isPrefixOf]
      exact eq_comm

theorem goHasPre_slash_cons {p : String} {t : List Char} (h : p.data = '/' :: t) :
    goHasPre p "/" = true := by
  rw [goHasPre]
  have hd : ("/" : String).data = ['/'] := rfl
  rw [hd, h]
  simp [List.isPrefixOf]

theorem goHasPre_of_append_left {s : String} (t : String) (h : goHasPre s "/" = true) :
    goHasPre (s ++ t) "/" = true := by
  rw [goHasPre] at h ⊢
  have hd : ("/" : String).data = ['/'] := rfl
  rw [hd] at h ⊢
  obtain ⟨r, hr⟩ := isPrefixOf_singleton_iff.mp h
  rw [String.data_append, hr]
  simp [List.isPrefixOf]

theorem goHasSuf_append_slash (s : String) : goHasSuf (s ++ "/") "/" = true := by
  rw [goHasSuf]
  have hd : ("/" : String).data = ['/'] := rfl
  rw [String.data_append, hd]
  rw [List.isSuffixOf]
  simp [List.isPrefixOf]

theorem goNormalizePath_slashes (p : String) :
    goHasPre (goNormalizePath p) "/" = true ∧ goHasSuf (goNormalizePath p) "/" = true := by
  rw [goNormalizePath]
  by_cases he : p = ""
  · rw [if_pos he]
    constructor
    · exact goHasPre_slash_cons rfl
    · rw [goHasSuf]
      decide
  · rw [if_neg he]
    simp only
    have hpre : goHasPre (if goHasPre p "/" then p else "/" ++ p) "/" = true := by
      by_cases hp : goHasPre p "/" = true
      · rw [if_pos hp]
        exact hp
      · rw [if_neg hp]
        exact @goHasPre_slash_cons ("/" ++ p) p.data (by rw [String.data_append]; rfl)
    by_cases hsuf : goHasSuf (if goHasPre p "/" then p else "/" ++ p) "/" = true
    · rw [if_pos hsuf]
      exact ⟨hpre, hsuf⟩
    · rw [if_neg hsuf]
      exact ⟨goHasPre_of_append_left _ hpre, goHasSuf_append_slash _⟩

theorem goNormalizePath_fixpoint {p : String}
    (h₁ : goHasPre p "/" = true) (h₂ : goHasSuf p "/" = true) :
    goNormalizePath p = p := by
  have hne : p ≠ "" := by
    intro he
    subst he
    rw [goHasPre] at h₁
    have hd : ("/" : String).data = ['/'] := rfl
    rw [hd] at h₁
    simp [List.isPrefixOf] at h₁
  rw [goNormalizePath, if_neg hne]
  simp only
  rw [if_pos h₁, if_pos h₂]

theorem findExplicitRole_some {ts : List (String × Target)} {A r : String}
    (h : findExplicitRole ts A = some r) :
    ∃ p ∈ ts, p.2.accountID = A ∧ p.2.roleARN = r ∧ r ≠ "" := by
  induction ts with
  | nil => simp [findExplicitRole] at h
  | cons hd rest ih =>
      obtain ⟨n, t⟩ := hd
      rw [findExplicitRole] at h
      by_cases hc : t.accountID = A ∧ t.roleARN ≠ ""
      · rw [if_pos hc] at h
        have hr : t.roleARN = r := by
          injection h
        exact ⟨(n, t), List.mem_cons_self _ _, hc.1, hr, hr ▸ hc.2⟩
      · rw [if_neg hc] at h
        obtain ⟨p, hp, hrest⟩ := ih h
        exact ⟨p, List.mem_cons_of_mem _ hp, hrest⟩

theorem findExplicitRole_none_iff {ts : List (String × Target)} {A : String} :
    findExplicitRole ts A = none ↔
      ∀ p ∈ ts, ¬(p.2.accountID = A ∧ p.2.roleARN ≠ "") := by
  induction ts with
  | nil => simp [findExplicitRole]
  | cons hd rest ih =>
      obtain ⟨n, t⟩ := hd
      rw [findExplicitRole]
      by_cases hc : t.accountID = A ∧ t.roleARN ≠ ""
      · rw [if_pos hc]
        simp only [reduceCtorEq, false_iff]
        intro hall
        exact hall (n, t) (List.mem_cons_self _ _) hc
      · rw [if_neg hc]
        rw [ih]
        constructor
        · intro hall p hp
          rcases List.mem_cons.mp hp with hp' | hp'
          · subst hp'
            exact hc
          · exact hall p hp'
        · intro hall p hp
          exact hall p (List.mem_cons_of_mem _ hp)

/-- C6 (amended): GetRoleARN uses the explicit role of a target carrying
the account id when one exists; otherwise with control tower enabled it
derives the control-tower ARN around the path normalized to carry at least
one leading and one trailing slash (a slash is added only when absent, an
empty path becomes /); otherwise a configured custom pattern has its
account-id placeholder substituted everywhere; otherwise the default
control-tower ARN is produced. -/
theorem GetRoleARN_spec (c : Config) (A : String) :
    (∀ r, findExplicitRole c.targets A = some r →
        GetRoleARN c A = r ∧ ∃ p ∈ c.targets, p.2.accountID = A ∧ p.2.roleARN = r ∧ r ≠ "")
    ∧ (findExplicitRole c.targets A = none ↔
        ∀ p ∈ c.targets, ¬(p.2.accountID = A ∧ p.2.roleARN ≠ ""))
    ∧ (findExplicitRole c.targets A = none → c.aws.controlTower.enabled = true →
        GetRoleARN c A = "arn:aws:iam::" ++ A ++ ":role"
          ++ goNormalizePath c.aws.controlTower.executionRole.path
          ++ (if c.aws.controlTower.executionRole.name = "" then "AWSControlTowerExecution"
              else c.aws.controlTower.executionRole.name))
    ∧ (∀ p, goHasPre (goNormalizePath p) "/" = true ∧ goHasSuf (goNormalizePath p) "/" = true
        ∧ goNormalizePath "" = "/"
        ∧ (goHasPre p "/" = true → goHasSuf p "/" = true → goNormalizePath p = p))
    ∧ (findExplicitRole c.targets A = none → c.aws.controlTower.enabled = false →
        c.aws.executionContext.customRolePattern ≠ "" →
        GetRoleARN c A
          = goReplaceAll c.aws.executionContext.customRolePattern "\x7b\x7b.AccountID\x7d\x7d" A)
    ∧ (findExplicitRole c.targets A = none → c.aws.controlTower.enabled = false →
        c.aws.executionContext.customRolePattern = "" →
        GetRoleARN c A = "arn:aws:iam::" ++ A ++ ":role/AWSControlTowerExecution") := by
  refine ⟨?_, findExplicitRole_none_iff, ?_, ?_, ?_, ?_⟩
  · intro r hr
    constructor
    · rw [GetRoleARN, hr]
    · exact findExplicitRole_some hr
  · intro hnone hct
    rw [GetRoleARN, hnone]
    simp only [hct, if_true]
  · intro p
    exact ⟨(goNormalizePath_slashes p).1, (goNormalizePath_slashes p).2, rfl,
      goNormalizePath_fixpoint⟩
  · intro hnone hct hpat
    rw [GetRoleARN, hnone]
    simp only [hct, Bool.false_eq_true, if_false]
    rw [if_pos hpat]
  · intro hnone hct hpat
    rw [GetRoleARN, hnone]
    simp only [hct, Bool.false_eq_true, if_false]
    rw [if_neg (fun hcon => hcon hpat)]

/-- C6 (counterexample): the Go code only guarantees at least one leading
and trailing slash; on the path //x it keeps the doubled slash, while the
claimed exactly-one-slash normalization would produce /x/. -/
theorem GetRoleARN_counterexample :
    GetRoleARN
        (Config.mk [] [] (MergeStoreConfig.mk none)
          (AWSConfig.mk "us-east-1" (ControlTowerConfig.mk true (ExecutionRoleConfig.mk "R" "//x"))
            (ExecutionContextConfig.mk "")))
        "123456789012"
      = "arn:aws:iam::123456789012:role//x/R"
    ∧ GetRoleARN
        (Config.mk [] [] (MergeStoreConfig.mk none)
          (AWSConfig.mk "us-east-1" (ControlTowerConfig.mk true (ExecutionRoleConfig.mk "R" "//x"))
            (ExecutionContextConfig.mk "")))
        "123456789012"
      ≠ "arn:aws:iam::" ++ "123456789012" ++ ":role" ++ claimNormalizePath "//x" ++ "R" := by
  constructor
  · rfl
  · decide

/-- C6 (witness for the amended theorem): the control-tower branch of
GetRoleARN evaluated on the data of the first TestGetRoleARN case. -/
theorem GetRoleARN_spec_witness :
    GetRoleARN
        (Config.mk [] [] (MergeStoreConfig.mk none)
          (AWSConfig.mk "us-east-1"
            (ControlTowerConfig.mk true (ExecutionRoleConfig.mk "AWSControlTowerExecution" ""))
            (ExecutionContextConfig.mk "")))
        "123456789012"
      = "arn:aws:iam::" ++ "123456789012" ++ ":role" ++ goNormalizePath ""
          ++ (if ("AWSControlTowerExecution" : String) = "" then "AWSControlTowerExecution"
              else "AWSControlTowerExecution") :=
  (GetRoleARN_spec
      (Config.mk [] [] (MergeStoreConfig.mk none)
        (AWSConfig.mk "us-east-1"
          (ControlTowerConfig.mk true (ExecutionRoleConfig.mk "AWSControlTowerExecution" ""))
          (ExecutionContextConfig.mk "")))
      "123456789012").2.2.1 rfl rfl

/-! Target-graph cycle detection (C2, C5). -/

theorem Reaches_snoc {c : Config} {a b d : String}
    (h : Reaches c a b) (he : Edge c b d) : Reaches c a d := by
  induction h with
  | single hab => exact Reaches.cons hab (Reaches.single he)
  | cons hab _ ih => exact Reaches.cons hab (ih he)

theorem chainTo_mem {c : Config} :
    ∀ {gs : List String} {n g : String}, chainTo c gs n → g ∈ gs → Reaches c g n := by
  intro gs
  induction gs with
  | nil =>
      intro n g _ hg
      simp at hg
  | cons g₁ t ih =>
      intro n g hchain hg
      rw [chainTo] at hchain
      rcases List.mem_cons.mp hg with hg' | hg'
      · subst hg'
        exact Reaches.single hchain.1
      · exact Reaches_snoc (ih hchain.2 hg') hchain.1

theorem blackReach {c : Config} {V G : List String} (hbc : blackClosed c V G) :
    ∀ {a b : String}, Reaches c a b → a ∈ V → a ∉ G → b ∈ V ∧ b ∉ G := by
  intro a b h
  induction h with
  | single hab =>
      intro haV haG
      exact hbc _ haV haG _ hab
  | cons hab _ ih =>
      intro haV haG
      obtain ⟨hbV, hbG⟩ := hbc _ haV haG _ hab
      exact ih hbV hbG

theorem lookupKey_isSome_of_mem {α : Type} {n : String} {t : α} {l : List (String × α)}
    (h : (n, t) ∈ l) : (lookupKey n l).isSome = true := by
  rw [lookupKey_isSome]
  rw [keysOf]
  exact List.mem_map.mpr ⟨(n, t), h, rfl⟩

theorem go_mono_of (c : Config) (fuel : Nat)
    (hdet : ∀ name V G V₂, detectCycleF c fuel name V G = some (Except.ok V₂) →
        ∀ x ∈ V, x ∈ V₂) :
    ∀ (imps : List String) (name : String) (V G V₂ : List String),
      goImports c fuel name imps V G = some (Except.ok V₂) → ∀ x ∈ V, x ∈ V₂ := by
  intro imps
  induction imps with
  | nil =>
      intro name V G V₂ h x hx
      rw [goImports] at h
      injection h with h
      injection h with h
      exact h ▸ hx
  | cons imp rest ih =>
      intro name V G V₂ h x hx
      rw [goImports] at h
      by_cases htgt : (lookupKey imp c.targets).isSome = true
      · rw [if_pos htgt] at h
        by_cases hvis : imp ∈ V
        · rw [if_pos hvis] at h
          by_cases hrec : imp ∈ G
          · rw [if_pos hrec] at h
            simp at h
          · rw [if_neg hrec] at h
            exact ih name V G V₂ h x hx
        · rw [if_neg hvis] at h
          rcases hd : detectCycleF c fuel imp V G with _ | exc
          · rw [hd] at h
            simp at h
          · rcases exc with e | V₃
            · rw [hd] at h
              simp at h
            · rw [hd] at h
              exact ih name V₃ G V₂ h x (hdet imp V G V₃ hd x hx)
      · rw [if_neg htgt] at h
        exact ih name V G V₂ h x hx

theorem detect_mono (c : Config) :
    ∀ fuel name V G V₂, detectCycleF c fuel name V G = some (Except.ok V₂) →
      ∀ x ∈ name :: V, x ∈ V₂ := by
  intro fuel
  induction fuel with
  | zero =>
      intro name V G V₂ h
      rw [detectCycleF] at h
      simp at h
  | succ fuel ih =>
      intro name V G V₂ h x hx
      rw [detectCycleF] at h
      have hdet : ∀ n V₀ G₀ V₁, detectCycleF c fuel n V₀ G₀ = some (Except.ok V₁) →
          ∀ y ∈ V₀, y ∈ V₁ := by
        intro n V₀ G₀ V₁ hh y hy
        exact ih n V₀ G₀ V₁ hh y (List.mem_cons_of_mem _ hy)
      exact go_mono_of c fuel hdet _ name (name :: V) (name :: G) V₂ h x hx

theorem filter_length_mono {p q : String → Bool} :
    ∀ l : List String, (∀ x, p x = true → q x = true) →
      (l.filter p).length ≤ (l.filter q).length := by
  intro l himp
  induction l with
  | nil => simp
  | cons a t ih =>
      rw [List.filter_cons, List.filter_cons]
      rcases hp : p a
      · rcases hq : q a
        · simpa using ih
        · simp
          exact le_trans ih (Nat.le_succ _)
      · rw [himp a hp]
        simpa using ih

theorem unvisitedCount_le {c : Config} {V V₂ : List String}
    (h : ∀ x ∈ V, x ∈ V₂) : unvisitedCount c V₂ ≤ unvisitedCount c V := by
  rw [unvisitedCount, unvisitedCount]
  apply filter_length_mono
  intro x hx
  simp at hx ⊢
  intro hv
  exact hx (h x hv)

theorem unvisitedCount_cons_lt {c : Config} {name : String} {V : List String}
    (hmem : name ∈ keysOf c.targets) (hnv : name ∉ V) :
    unvisitedCount c (name :: V) < unvisitedCount c V := by
  rw [unvisitedCount, unvisitedCount]
  have hgen : ∀ l : List String, name ∈ l →
      (l.filter (fun n => decide (¬ n ∈ name :: V))).length
        < (l.filter (fun n => decide (¬ n ∈ V))).length := by
    intro l
    induction l with
    | nil => simp
    | cons a t ih =>
        intro hmem'
        rw [List.filter_cons, List.filter_cons]
        by_cases ha : a = name
        · subst ha
          have h₁ : (decide (¬ a ∈ a :: V)) = false := by simp
          have h₂ : (decide (¬ a ∈ V)) = true := by simp [hnv]
          rw [h₁, h₂]
          rw [if_neg (by simp), if_pos rfl, List.length_cons]
          apply Nat.lt_succ_of_le
          apply filter_length_mono
          intro x hx
          simp at hx ⊢
          exact hx.2
        · have hmt : name ∈ t := by
            rcases List.mem_cons.mp hmem' with h' | h'
            · exact absurd h'.symm ha
            · exact h'
          by_cases hav : a ∈ V
          · have h₁ : (decide (¬ a ∈ name :: V)) = false := by simp [hav]
            have h₂ : (decide (¬ a ∈ V)) = false := by simp [hav]
            rw [h₁, h₂]
            rw [if_neg (by simp), if_neg (by simp)]
            exact ih hmt
          · have h₁ : (decide (¬ a ∈ name :: V)) = true := by simp [ha, hav]
            have h₂ : (decide (¬ a ∈ V)) = true := by simp [hav]
            rw [h₁, h₂]
            rw [if_pos rfl, if_pos rfl, List.length_cons, List.length_cons]
            exact Nat.succ_lt_succ (ih hmt)
  exact hgen _ hmem

theorem go_nf_of (c : Config) (fuel : Nat)
    (hdet : ∀ name V G, ((lookupKey name c.targets).isSome = true → name ∉ V) →
        unvisitedCount c V < fuel → detectCycleF c fuel name V G ≠ none) :
    ∀ (imps : List String) (name : String) (V G : List String),
      unvisitedCount c V < fuel → goImports c fuel name imps V G ≠ none := by
  intro imps
  induction imps with
  | nil =>
      intro name V G hf h
      rw [goImports] at h
      simp at h
  | cons imp rest ih =>
      intro name V G hf h
      rw [goImports] at h
      by_cases htgt : (lookupKey imp c.targets).isSome = true
      · rw [if_pos htgt] at h
        by_cases hvis : imp ∈ V
        · rw [if_pos hvis] at h
          by_cases hrec : imp ∈ G
          · rw [if_pos hrec] at h
            simp at h
          · rw [if_neg hrec] at h
            exact ih name V G hf h
        · rw [if_neg hvis] at h
          rcases hd : detectCycleF c fuel imp V G with _ | exc
          · exact hdet imp V G (fun _ => hvis) hf hd
          · rcases exc with e | V₃
            · rw [hd] at h
              simp at h
            · rw [hd] at h
              have hmono : ∀ x ∈ V, x ∈ V₃ := by
                intro x hx
                exact detect_mono c fuel imp V G V₃ hd x (List.mem_cons_of_mem _ hx)
              exact ih name V₃ G (lt_of_le_of_lt (unvisitedCount_le hmono) hf) h
      · rw [if_neg htgt] at h
        exact ih name V G hf h

theorem detect_nf (c : Config) :
    ∀ fuel name V G, ((lookupKey name c.targets).isSome = true → name ∉ V) →
      unvisitedCount c V < fuel → detectCycleF c fuel name V G ≠ none := by
  intro fuel
  induction fuel with
  | zero =>
      intro name V G _ hf
      omega
  | succ fuel ih =>
      intro name V G hn hf h
      rw [detectCycleF] at h
      by_cases htgt : (lookupKey name c.targets).isSome = true
      · have hnv : name ∉ V := hn htgt
        have hmem : name ∈ keysOf c.targets := lookupKey_isSome.mp htgt
        have hlt : unvisitedCount c (name :: V) < fuel := by
          have := unvisitedCount_cons_lt hmem hnv
          omega
        exact go_nf_of c fuel ih _ name (name :: V) (name :: G) hlt h
      · have himp : importsOf c name = [] := by
          rw [importsOf]
          rcases hl : lookupKey name c.targets with _ | t
          · rfl
          · rw [hl] at htgt
            simp at htgt
        rw [himp, goImports] at h
        simp at h

theorem go_err_of (c : Config) (fuel : Nat)
    (hdet : ∀ name V G e, detectCycleF c fuel name V G = some (Except.error e) →
        chainTo c G name → (lookupKey name c.targets).isSome = true → HasCycle c) :
    ∀ (imps : List String) (name : String) (V G : List String) (e : String),
      goImports c fuel name imps V (name :: G) = some (Except.error e) →
      chainTo c G name → (lookupKey name c.targets).isSome = true →
      (∀ i ∈ imps, i ∈ importsOf c name) → HasCycle c := by
  intro imps
  induction imps with
  | nil =>
      intro name V G e h _ _ _
      rw [goImports] at h
      simp at h
  | cons imp rest ih =>
      intro name V G e h hchain htgt hsub
      rw [goImports] at h
      by_cases hi : (lookupKey imp c.targets).isSome = true
      · rw [if_pos hi] at h
        by_cases hvis : imp ∈ V
        · rw [if_pos hvis] at h
          by_cases hrec : imp ∈ name :: G
          · have hedge : Edge c name imp :=
              ⟨htgt, hi, hsub imp (List.mem_cons_self _ _)⟩
            rcases List.mem_cons.mp hrec with hr | hr
            · exact ⟨name, Reaches.single (hr ▸ hedge)⟩
            · exact ⟨imp, Reaches_snoc (chainTo_mem hchain hr) hedge⟩
          · rw [if_neg hrec] at h
            exact ih name V G e h hchain htgt
              (fun i hiR => hsub i (List.mem_cons_of_mem _ hiR))
        · rw [if_neg hvis] at h
          rcases hd : detectCycleF c fuel imp V (name :: G) with _ | exc
          · rw [hd] at h
            simp at h
          · rcases exc with e₂ | V₃
            · have hedge : Edge c name imp :=
                ⟨htgt, hi, hsub imp (List.mem_cons_self _ _)⟩
              exact hdet imp V (name :: G) e₂ hd ⟨hedge, hchain⟩ hi
            · rw [hd] at h
              exact ih name V₃ G e h hchain htgt
                (fun i hiR => hsub i (List.mem_cons_of_mem _ hiR))
      · rw [if_neg hi] at h
        exact ih name V G e h hchain htgt
          (fun i hiR => hsub i (List.mem_cons_of_mem _ hiR))

theorem detect_err (c : Config) :
    ∀ fuel name V G e, detectCycleF c fuel name V G = some (Except.error e) →
      chainTo c G name → (lookupKey name c.targets).isSome = true → HasCycle c := by
  intro fuel
  induction fuel with
  | zero =>
      intro name V G e h
      rw [detectCycleF] at h
      simp at h
  | succ fuel ih =>
      intro name V G e h hchain htgt
      rw [detectCycleF] at h
      exact go_err_of c fuel ih _ name (name :: V) G e h hchain htgt (fun i hi => hi)

theorem go_ok_of (c : Config) (fuel : Nat)
    (hdet : ∀ name V G V₂, detectCycleF c fuel name V G = some (Except.ok V₂) →
        name ∉ V → (∀ g ∈ G, g ∈ V) → blackClosed c V G →
        blackClosed c V₂ (name :: G) ∧ (∀ b, Edge c name b → b ∈ V₂ ∧ b ∉ name :: G)) :
    ∀ (imps : List String) (name : String) (V R V₂ : List String),
      goImports c fuel name imps V R = some (Except.ok V₂) →
      (∀ g ∈ R, g ∈ V) → blackClosed c V R →
      (∀ b, (lookupKey b c.targets).isSome = true → b ∈ importsOf c name →
          b ∈ imps ∨ (b ∈ V ∧ b ∉ R)) →
      blackClosed c V₂ R ∧
      (∀ b, (lookupKey b c.targets).isSome = true → b ∈ importsOf c name →
          b ∈ V₂ ∧ b ∉ R) := by
  intro imps
  induction imps with
  | nil =>
      intro name V R V₂ h hRV hbc hbook
      rw [goImports] at h
      injection h with h
      injection h with h
      subst h
      refine ⟨hbc, ?_⟩
      intro b hb hbi
      rcases hbook b hb hbi with hcon | hblack
      · simp at hcon
      · exact hblack
  | cons imp rest ih =>
      intro name V R V₂ h hRV hbc hbook
      rw [goImports] at h
      by_cases htgt : (lookupKey imp c.targets).isSome = true
      · rw [if_pos htgt] at h
        by_cases hvis : imp ∈ V
        · rw [if_pos hvis] at h
          by_cases hrec : imp ∈ R
          · rw [if_pos hrec] at h
            simp at h
          · rw [if_neg hrec] at h
            apply ih name V R V₂ h hRV hbc
            intro b hb hbi
            rcases hbook b hb hbi with hbr | hblack
            · rcases List.mem_cons.mp hbr with hbe | hbe
              · exact Or.inr ⟨hbe ▸ hvis, hbe ▸ hrec⟩
              · exact Or.inl hbe
            · exact Or.inr hblack
        · rw [if_neg hvis] at h
          rcases hd : detectCycleF c fuel imp V R with _ | exc
          · rw [hd] at h
            simp at h
          · rcases exc with e | V₃
            · rw [hd] at h
              simp at h
            · rw [hd] at h
              obtain ⟨hbc₃, hsuccs⟩ := hdet imp V R V₃ hd hvis hRV hbc
              have hmono : ∀ x ∈ V, x ∈ V₃ := by
                intro x hx
                exact detect_mono c fuel imp V R V₃ hd x (List.mem_cons_of_mem _ hx)
              have himpV₃ : imp ∈ V₃ :=
                detect_mono c fuel imp V R V₃ hd imp (List.mem_cons_self _ _)
              have himpR : imp ∉ R := fun hcon => hvis (hRV imp hcon)
              have hbc' : blackClosed c V₃ R := by
                intro a haV haR b hedge
                by_cases hai : a = imp
                · subst hai
                  obtain ⟨hbV, hbR⟩ := hsuccs b hedge
                  refine ⟨hbV, ?_⟩
                  intro hcon
                  exact hbR (List.mem_cons_of_mem _ hcon)
                · have haR' : a ∉ imp :: R := by
                    intro hcon
                    rcases List.mem_cons.mp hcon with hc | hc
                    · exact hai hc
                    · exact haR hc
                  obtain ⟨hbV, hbR⟩ := hbc₃ a haV haR' b hedge
                  refine ⟨hbV, ?_⟩
                  intro hcon
                  exact hbR (List.mem_cons_of_mem _ hcon)
              apply ih name V₃ R V₂ h (fun g hg => hmono g (hRV g hg)) hbc'
              intro b hb hbi
              rcases hbook b hb hbi with hbr | hblack
              · rcases List.mem_cons.mp hbr with hbe | hbe
                · exact Or.inr ⟨hbe ▸ himpV₃, hbe ▸ himpR⟩
                · exact Or.inl hbe
              · exact Or.inr ⟨hmono b hblack.1, hblack.2⟩
      · rw [if_neg htgt] at h
        apply ih name V R V₂ h hRV hbc
        intro b hb hbi
        rcases hbook b hb hbi with hbr | hblack
        · rcases List.mem_cons.mp hbr with hbe | hbe
          · exact absurd (hbe ▸ hb) htgt
          · exact Or.inl hbe
        · exact Or.inr hblack

theorem detect_ok (c : Config) :
    ∀ fuel name V G V₂, detectCycleF c fuel name V G = some (Except.ok V₂) →
      name ∉ V → (∀ g ∈ G, g ∈ V) → blackClosed c V G →
      blackClosed c V₂ (name :: G) ∧ (∀ b, Edge c name b → b ∈ V₂ ∧ b ∉ name :: G) := by
  intro fuel
  induction fuel with
  | zero =>
      intro name V G V₂ h
      rw [detectCycleF] at h
      simp at h
  | succ fuel ih =>
      intro name V G V₂ h hnv hGV hbc
      rw [detectCycleF] at h
      have hRV : ∀ g ∈ name :: G, g ∈ name :: V := by
        intro g hg
        rcases List.mem_cons.mp hg with hg' | hg'
        · exact hg' ▸ List.mem_cons_self _ _
        · exact List.mem_cons_of_mem _ (hGV g hg')
      have hbc' : blackClosed c (name :: V) (name :: G) := by
        intro a haV haR b hedge
        have hane : a ≠ name := by
          intro hcon
          exact haR (hcon ▸ List.mem_cons_self _ _)
        have haV' : a ∈ V := by
          rcases List.mem_cons.mp haV with hc | hc
          · exact absurd hc hane
          · exact hc
        have haG : a ∉ G := fun hcon => haR (List.mem_cons_of_mem _ hcon)
        obtain ⟨hbV, hbG⟩ := hbc a haV' haG b hedge
        refine ⟨List.mem_cons_of_mem _ hbV, ?_⟩
        intro hcon
        rcases List.mem_cons.mp hcon with hc | hc
        · exact hnv (hc ▸ hbV)
        · exact hbG hc
      obtain ⟨hbcl, hcls⟩ := go_ok_of c fuel ih _ name (name :: V) (name :: G) V₂ h hRV hbc'
        (fun b hb hbi => Or.inl hbi)
      refine ⟨hbcl, ?_⟩
      intro b hedge
      exact hcls b hedge.2.1 hedge.2.2

theorem validateLoop_ok_mem (c : Config) :
    ∀ ts, validateLoop c ts = some (Except.ok ()) →
      ∀ p ∈ ts, ∃ V₂, detectCycleF c (c.targets.length + 1) p.1 [] [] = some (Except.ok V₂) := by
  intro ts
  induction ts with
  | nil =>
      intro _ p hp
      simp at hp
  | cons hd rest ih =>
      intro h p hp
      obtain ⟨n, t⟩ := hd
      rw [validateLoop] at h
      rcases hd₂ : detectCycleF c (c.targets.length + 1) n [] [] with _ | exc
      · rw [hd₂] at h
        simp at h
      · rcases exc with e | V₃
        · rw [hd₂] at h
          simp at h
        · rw [hd₂] at h
          rcases List.mem_cons.mp hp with hp' | hp'
          · subst hp'
            exact ⟨V₃, hd₂⟩
          · exact ih h p hp'

theorem unvisitedCount_nil (c : Config) : unvisitedCount c [] = c.targets.length := by
  rw [unvisitedCount]
  have : (keysOf c.targets).filter (fun n => decide (¬ n ∈ ([] : List String)))
      = keysOf c.targets := by
    apply List.filter_eq_self.mpr
    intro a _
    simp
  rw [this, keysOf, List.length_map]

theorem validateLoop_ok_of_nocycle (c : Config) (hncy : ¬ HasCycle c) :
    ∀ ts, (∀ p ∈ ts, (lookupKey p.1 c.targets).isSome = true) →
      validateLoop c ts = some (Except.ok ()) := by
  intro ts
  induction ts with
  | nil =>
      intro _
      rw [validateLoop]
  | cons hd rest ih =>
      intro hall
      obtain ⟨n, t⟩ := hd
      rw [validateLoop]
      rcases hd₂ : detectCycleF c (c.targets.length + 1) n [] [] with _ | exc
      · exfalso
        apply detect_nf c (c.targets.length + 1) n [] []
        · intro _
          simp
        · rw [unvisitedCount_nil]
          omega
        · exact hd₂
      · rcases exc with e | V₃
        · exfalso
          apply hncy
          apply detect_err c (c.targets.length + 1) n [] [] e hd₂
          · rw [chainTo]
            trivial
          · exact hall (n, t) (List.mem_cons_self _ _)
        · exact ih (fun p hp => hall p (List.mem_cons_of_mem _ hp))

/-- C2: ValidateTargetInheritance succeeds exactly when the directed graph
whose edges are imports naming another target is acyclic (self-loops
included); imports naming sources or unknown names never produce a cycle
error since they induce no edge. -/
theorem ValidateTargetInheritance_iff (c : Config) :
    ValidateTargetInheritance c = some (Except.ok ()) ↔ ¬ HasCycle c := by
  constructor
  · intro h hcy
    obtain ⟨x, hx⟩ := hcy
    have hxt : (lookupKey x c.targets).isSome = true := by
      cases hx with
      | single he => exact he.1
      | cons he _ => exact he.1
    rcases hl : lookupKey x c.targets with _ | t
    · rw [hl] at hxt
      simp at hxt
    · have hmem : (x, t) ∈ c.targets := lookupKey_mem hl
      rw [ValidateTargetInheritance] at h
      obtain ⟨V₂, hdet⟩ := validateLoop_ok_mem c c.targets h (x, t) hmem
      have hnil : ∀ g ∈ ([] : List String), g ∈ ([] : List String) := by
        intro g hg
        simp at hg
      have hbc : blackClosed c [] [] := by
        intro a ha
        simp at ha
      obtain ⟨hbcl, hsuc⟩ := detect_ok c _ x [] [] V₂ hdet (by simp) hnil hbc
      cases hx with
      | single he =>
          exact (hsuc x he).2 (List.mem_cons_self _ _)
      | cons he hr =>
          obtain ⟨hbV, hbR⟩ := hsuc _ he
          have hxblack := blackReach hbcl hr hbV hbR
          exact hxblack.2 (List.mem_cons_self _ _)
  · intro hncy
    rw [ValidateTargetInheritance]
    apply validateLoop_ok_of_nocycle c hncy
    intro p hp
    obtain ⟨n, t⟩ := p
    exact lookupKey_isSome_of_mem hp

/-- C5: the cycle error reports only the closing edge with a generic label.
A self-loop A imports A yields the message for the edge A -> A with no
self-reference wording (the autodetect test expects a self-reference
label), and the two-target cycle A -> B -> A yields only B -> A, not the
full path. -/
theorem detectCycle_message_bug :
    ValidateTargetInheritance
        (Config.mk [] [("A", Target.mk "" "" "" ["A"])] (MergeStoreConfig.mk none)
          (AWSConfig.mk "" (ControlTowerConfig.mk false (ExecutionRoleConfig.mk "" ""))
            (ExecutionContextConfig.mk "")))
      = some (Except.error "circular dependency detected in target inheritance: A -> A")
    ∧ containsSeq ("self-reference".data)
        ("circular dependency detected in target inheritance: A -> A".data) = false
    ∧ ValidateTargetInheritance
        (Config.mk []
          [("A", Target.mk "" "" "" ["B"]), ("B", Target.mk "" "" "" ["A"])]
          (MergeStoreConfig.mk none)
          (AWSConfig.mk "" (ControlTowerConfig.mk false (ExecutionRoleConfig.mk "" ""))
            (ExecutionContextConfig.mk "")))
      = some (Except.error "circular dependency detected in target inheritance: B -> A")
    ∧ containsSeq ("A -> B -> A".data)
        ("circular dependency detected in target inheritance: B -> A".data) = false := by
  refine ⟨?_, by decide, ?_, by decide⟩
  · simp [ValidateTargetInheritance, validateLoop, detectCycleF, goImports, importsOf, lookupKey]
  · simp [ValidateTargetInheritance, validateLoop, detectCycleF, goImports, importsOf, lookupKey]
